import Mathlib

/-!
Shallow embedding of the intrusion-detection dashboard pipeline
(`project/app/app.py`) and verification of its specification claims.

The pandas `DataFrame` objects manipulated by the script are modelled as
frames: ordered lists of named columns, where a column is either numeric
(cells are missing, +infinity, -infinity, or an exact rational value) or
textual (cells are missing or a string).  Numeric values are embedded as
exact rationals; dtype downcasting (`float64` to `float32`) and categorical
re-encoding change storage precision only and are modelled as
value-preserving.  Streamlit display calls are modelled as accumulated
message lists where a claim depends on them.
-/

set_option autoImplicit false

namespace App

/-- A cell of a numeric (int/float) pandas column: `NaN`, `+inf`, `-inf`,
or a finite value (embedded as an exact rational). -/
inductive NumCell where
  | na
  | pinf
  | ninf
  | val (q : ℚ)
  deriving DecidableEq, Repr

/-- A pandas column: numeric (int/float dtype) or textual (object/category
dtype, cells optional to model `NaN`). -/
inductive Col where
  | num (cells : List NumCell)
  | str (cells : List (Option String))
  deriving DecidableEq, Repr

/-- A data frame: an ordered list of named columns. -/
structure Frame where
  cols : List (String × Col)
  deriving DecidableEq, Repr

/-- Number of cells in a column. -/
def Col.length : Col → ℕ
  | .num cs => cs.length
  | .str cs => cs.length

/-- The column names of a frame, in order (`data.columns`). -/
def colNames (f : Frame) : List String := f.cols.map (fun p => p.1)

/-- Look up a column by name (first match, like `data[name]`). -/
def Frame.getCol (f : Frame) (name : String) : Option Col :=
  (f.cols.find? (fun p => p.1 = name)).map (fun p => p.2)

/-- Row count of a frame (`len(data)`): length of its first column. -/
def Frame.nrows (f : Frame) : ℕ :=
  match f.cols.head? with
  | some p => p.2.length
  | none => 0

/-- A frame is well formed when every column has exactly `nrows` cells. -/
def Frame.WF (f : Frame) : Prop :=
  ∀ p ∈ f.cols, p.2.length = f.nrows

instance (f : Frame) : Decidable f.WF := by
  unfold Frame.WF; infer_instance

/-- Column assignment `data[name] = col`: overwrite the column in place if
the name exists, otherwise append it as the last column. -/
def Frame.setCol (f : Frame) (name : String) (c : Col) : Frame :=
  if name ∈ colNames f then
    ⟨f.cols.map (fun p => if p.1 = name then (name, c) else p)⟩
  else
    ⟨f.cols ++ [(name, c)]⟩

/-- Apply a (name-aware) transformation to every column of a frame,
keeping names and order. -/
def Frame.mapCols (f : Frame) (g : String → Col → Col) : Frame :=
  ⟨f.cols.map (fun p => (p.1, g p.1 p.2))⟩

/-- `data.drop(columns=names, errors='ignore')`. -/
def Frame.dropCols (f : Frame) (names : List String) : Frame :=
  ⟨f.cols.filter (fun p => !(names.contains p.1))⟩

/-- Is the cell at row `i` of this column missing (`NaN`)?
Out-of-range rows count as missing; they do not occur in well-formed
frames. -/
def Col.cellIsNA (c : Col) (i : ℕ) : Bool :=
  match c with
  | .num cs => (cs.getD i NumCell.na) = NumCell.na
  | .str cs => (cs.getD i none) = none

/-- Select the rows of a column at the given indices, in order
(row selection by a positional index list). -/
def Col.selectIdx (c : Col) (idxs : List ℕ) : Col :=
  match c with
  | .num cs => .num (idxs.filterMap (fun i => cs.get? i))
  | .str cs => .str (idxs.filterMap (fun i => cs.get? i))

/-- The finite (non-missing, non-infinite) value of a numeric cell. -/
def NumCell.toFinite : NumCell → Option ℚ
  | .val q => some q
  | _ => none

/-- The median used by `Series.median()`: sort the non-missing values; odd
count takes the middle element, even count averages the two middle
elements; an empty series has median `NaN` (`none`). -/
def median (l : List ℚ) : Option ℚ :=
  let s := List.insertionSort (fun a b => a ≤ b) l
  let n := s.length
  if n = 0 then none
  else if n % 2 = 1 then some (s.getD (n / 2) 0)
  else some ((s.getD (n / 2 - 1) 0 + s.getD (n / 2) 0) / 2)

/-- `data.replace([np.inf, -np.inf], np.nan)` on one numeric cell. -/
def replaceInfCell (c : NumCell) : NumCell :=
  match c with
  | .pinf => .na
  | .ninf => .na
  | x => x

/-- `replace([np.inf, -np.inf], np.nan)` on a column (textual columns hold
no infinities and are unchanged). -/
def Col.replaceInf : Col → Col
  | .num cs => .num (cs.map replaceInfCell)
  | .str cs => .str cs

/-- `data.replace([np.inf, -np.inf], np.nan, inplace=True)`. -/
def replaceInfFrame (f : Frame) : Frame :=
  f.mapCols (fun _ c => c.replaceInf)

/-- `data[col].fillna(data[col].median(), inplace=True)` for one numeric
column (`select_dtypes(['int','float'])` selects exactly the numeric
columns; textual columns are untouched).  When the column has no
non-missing value the median is `NaN` and filling changes nothing. -/
def Col.fillMedian : Col → Col
  | .num cs =>
    match median (cs.filterMap NumCell.toFinite) with
    | some m => .num (cs.map (fun c => if c = NumCell.na then NumCell.val m else c))
    | none => .num cs
  | .str cs => .str cs

/-- Median-fill every numeric column of a frame. -/
def fillMedianFrame (f : Frame) : Frame :=
  f.mapCols (fun _ c => c.fillMedian)

/-- The error message emitted when the label column is absent. -/
def labelErrMsg : String := "Label column not found in the dataset."

/-- `data.dropna(subset=['Label'], inplace=True)`: remove every row whose
`Label` cell is missing. -/
def dropnaLabel (f : Frame) : Frame :=
  match f.getCol "Label" with
  | some lc =>
    let keep := (List.range lc.length).filter (fun i => !(lc.cellIsNA i))
    f.mapCols (fun _ c => c.selectIdx keep)
  | none => f

/-- `handle_missing_values` (app.py lines 15-25).  Returns the resulting
frame together with the list of `st.error` messages emitted.  Note that
when the `Label` column is absent the function shows an error message but
still falls through to the infinity replacement and median imputation. -/
def handle_missing_values (f : Frame) : Frame × List String :=
  if "Label" ∈ colNames f then
    (fillMedianFrame (replaceInfFrame (dropnaLabel f)), [])
  else
    (fillMedianFrame (replaceInfFrame f), [labelErrMsg])

/-- `str.strip()` on a column name: remove leading and trailing whitespace.
Executable model of string trimming over the character list. -/
def stripName (s : String) : String :=
  ⟨((s.data.dropWhile Char.isWhitespace).reverse.dropWhile Char.isWhitespace).reverse⟩

/-- `chunk.columns = chunk.columns.str.strip()`. -/
def trimFrame (f : Frame) : Frame :=
  ⟨f.cols.map (fun p => (stripName p.1, p.2))⟩

/-- `chunk.rename(columns={old: new}, inplace=True)`. -/
def renameCol (f : Frame) (old new : String) : Frame :=
  ⟨f.cols.map (fun p => if p.1 = old then (new, p.2) else p)⟩

/-- Per-chunk label normalization inside `load_and_combine_data` (app.py
lines 45-52): strip the column names; rename a column literally named
"label" to "Label"; otherwise rename "Class" to "Label"; otherwise assign
a "Label" column whose every cell is the constant "normal".  The
membership tests look only for "label" (lowercase) and "Class", so a chunk
that already has a column named "Label" and neither of those two falls
into the last branch. -/
def normalizeChunk (c : Frame) : Frame :=
  let c1 := trimFrame c
  if "label" ∈ colNames c1 then renameCol c1 "label" "Label"
  else if "Class" ∈ colNames c1 then renameCol c1 "Class" "Label"
  else c1.setCol "Label" (Col.str (List.replicate c1.nrows (some "normal")))

/-- Numeric downcast (`pd.to_numeric(..., downcast='float')`) and
categorical conversion (`astype('category')`) of `optimize_memory_usage`:
both change the storage dtype only; in this exact-value embedding the
cells are unchanged. -/
def downcastCol : Col → Col
  | .num cs => .num cs
  | .str cs => .str cs

/-- `optimize_memory_usage` (app.py lines 28-37): handle missing values,
then downcast numeric columns and convert object columns to categories. -/
def optimize_memory_usage (f : Frame) : Frame × List String :=
  let r := handle_missing_values f
  (r.1.mapCols (fun _ c => downcastCol c), r.2)

/-- Processing of one CSV chunk inside `load_and_combine_data` (app.py
lines 44-55): label normalization followed by memory optimization.  The
function's final output is the row-wise concatenation of the processed
chunks, so per-chunk column contents carry over to the combined batch. -/
def loadChunk (c : Frame) : Frame × List String :=
  optimize_memory_usage (normalizeChunk c)

/-- `LabelEncoder().fit_transform`: the classes are the sorted distinct
label values and each label maps to the index of its class. -/
def leClasses (vals : List String) : List String :=
  List.insertionSort (fun a b => a ≤ b) vals.dedup

/-- The integer code assigned to each label value, in row order. -/
def leTransform (vals : List String) : List ℕ :=
  vals.map (fun v => (leClasses vals).indexOf v)

/-- Number of test rows chosen by `train_test_split(test_size=0.2)`:
`ceil(0.2 * n)`. -/
def nTest (n : ℕ) : ℕ := (n + 4) / 5

/-- The distinct class codes of the label vector in sorted order
(`np.unique`). -/
def sklClasses (y : List ℕ) : List ℕ :=
  List.insertionSort (fun a b => a ≤ b) y.dedup

/-- The row indices holding class `c`, in original order. -/
def classIndices (y : List ℕ) (c : ℕ) : List ℕ :=
  (List.range y.length).filter (fun i => y.getD i 0 = c)

/-- Per-class allocation of the `m` test rows among the classes:
processing the classes in order with cumulative class-size accumulator
`acc`, the class of size `k` receives `m*(acc+k)/n - m*acc/n` test rows.
The allocations sum to `m` and each is within one row of the exact
proportional share `m*k/n`. -/
def stratAlloc (m n : ℕ) : ℕ → List ℕ → List ℕ
  | _, [] => []
  | acc, k :: ks => (m * (acc + k) / n - m * acc / n) :: stratAlloc m n (acc + k) ks

/-- Model of `train_test_split(X, y, test_size=0.2, random_state=seed,
stratify=y)` restricted to the index partition it induces on the rows:
the sorted classes receive test-row counts by `stratAlloc`, and each
class contributes that many of its rows to the test side and the rest to
the train side.  The RNG-driven permutation inside the library is
abstracted to taking each class's leading rows; the `seed` parameter is
kept to reflect that the call is a deterministic function of its inputs
and the seed.  Returns `(train indices, test indices)`. -/
def stratifiedSplit (y : List ℕ) (seed : ℕ) : List ℕ × List ℕ :=
  let n := y.length
  let m := nTest n
  let cs := sklClasses y
  let ts := stratAlloc m n 0 (cs.map (fun c => y.count c))
  ((cs.zip ts).flatMap (fun p => (classIndices y p.1).drop p.2),
   (cs.zip ts).flatMap (fun p => (classIndices y p.1).take p.2))

/-- The (class, test-allocation) pairs underlying the stratified split. -/
def splitPairs (y : List ℕ) : List (ℕ × ℕ) :=
  (sklClasses y).zip (stratAlloc (nTest y.length) y.length 0
    ((sklClasses y).map (fun c => y.count c)))

/-- The string values of the frame's `Label` column (`data['Label']`); at
this pipeline stage the column is textual with no missing cell. -/
def labelStrings (f : Frame) : List String :=
  match f.getCol "Label" with
  | some (Col.str cs) => cs.map (fun x => x.getD "")
  | _ => []

/-- `preprocess_data` (app.py lines 60-78).  The first component is the
caller-visible state of the frame that was passed in: the in-place
mutations (`data['Label'] = le.fit_transform(...)` and
`data.drop(columns=['Timestamp','ID'], inplace=True, errors='ignore')`)
are applied to it, while the subsequent `data = pd.get_dummies(...)`
rebinds the local name to a new frame and leaves the caller's frame
untouched.  The one-hot expansion and the `StandardScaler` operate on
that local floating-point matrix and are outside this embedding; the
train/test split is modelled by the row-index partition it induces, which
depends only on the encoded label vector and the fixed seed 42. -/
def preprocess_data (f : Frame) : Frame × (List ℕ × List ℕ) :=
  let codes := leTransform (labelStrings f)
  let f1 := f.setCol "Label" (Col.num (codes.map (fun k => NumCell.val (k : ℚ))))
  let f2 := f1.dropCols ["Timestamp", "ID"]
  (f2, stratifiedSplit codes 42)

/-- The "Anomaly Prediction" column built in `main` (app.py line 147):
detector outputs mapped to "Anomaly" (-1) or "Normal" (otherwise) for the
scored prefix, padded with `None` up to the combined batch's row count. -/
def anomalyPredColumn (preds : List ℤ) (n : ℕ) : List (Option String) :=
  preds.map (fun p => if p = -1 then some "Anomaly" else some "Normal") ++
    List.replicate (n - preds.length) none

/-- The anomaly detection step of `main` (app.py lines 143-147): score the
test partition with the trained detector and assign the resulting
prediction column onto the combined batch. -/
def detectStep (det : List ℚ → ℤ) (xtest : List (List ℚ)) (f : Frame) : Frame :=
  f.setCol "Anomaly Prediction" (Col.str (anomalyPredColumn (xtest.map det) f.nrows))

/-- The row indices whose "Anomaly Prediction" cell equals "Anomaly". -/
def flaggedIdx (f : Frame) : List ℕ :=
  match f.getCol "Anomaly Prediction" with
  | some (Col.str cs) =>
    (List.range cs.length).filter (fun i => cs.getD i none = some "Anomaly")
  | _ => []

/-- `suspicious = combined_data[combined_data['Anomaly Prediction'] ==
"Anomaly"]` (app.py line 148): the filtered view of the flagged rows. -/
def suspiciousRows (f : Frame) : Frame :=
  f.mapCols (fun _ c => c.selectIdx (flaggedIdx f))

/-- `accuracy_score(y_test, predictions)`: the fraction of positions where
the prediction equals the true label. -/
def accuracy_score (yTrue yPred : List ℕ) : ℚ :=
  (((yTrue.zip yPred).countP (fun r => r.1 = r.2) : ℕ) : ℚ) / (yTrue.length : ℚ)

/-- The label codes indexing `confusion_matrix` rows and columns: sorted
distinct values over truths and predictions. -/
def cmLabels (yTrue yPred : List ℕ) : List ℕ :=
  List.insertionSort (fun a b => a ≤ b) (yTrue ++ yPred).dedup

/-- `confusion_matrix(y_test, predictions)`: entry (i, j) counts the rows
with true label `labels[i]` and predicted label `labels[j]`. -/
def confusion_matrix (yTrue yPred : List ℕ) : List (List ℕ) :=
  (cmLabels yTrue yPred).map (fun t =>
    (cmLabels yTrue yPred).map (fun p =>
      (yTrue.zip yPred).countP (fun r => r.1 = t ∧ r.2 = p)))

/-- The values displayed by `evaluate_model` (app.py lines 94-105): the
accuracy scalar and the confusion matrix (the textual classification
report is presentation only). -/
structure EvalReport where
  accuracy : ℚ
  cm : List (List ℕ)

/-- `evaluate_model(model, X_test, y_test)` with the fitted classifier
abstracted as a prediction function applied to every test row. -/
def evaluate_model (model : List ℚ → ℕ) (Xtest : List (List ℚ))
    (yTest : List ℕ) : EvalReport :=
  { accuracy := accuracy_score yTest (Xtest.map model),
    cm := confusion_matrix yTest (Xtest.map model) }

/-- JSON values, for the completion-service response body. -/
inductive Json where
  | str (s : String)
  | num (q : ℚ)
  | bool (b : Bool)
  | null
  | arr (xs : List Json)
  | obj (kvs : List (String × Json))

/-- Python `dict.get(key, default)`. -/
def dictGetD (kvs : List (String × Json)) (k : String) (d : Json) : Json :=
  match kvs.find? (fun p => p.1 = k) with
  | some p => p.2
  | none => d

/-- The response handling of `predict_with_groq` (app.py line 117):
`response.json().get("choices", [{}])[0].get("text", "No response")`.
The parsed response body is taken as a JSON object (transport and JSON
parsing are outside the embedding).  Python raises IndexError when `[0]`
hits an empty list and AttributeError when `.get` is called on a
non-dict, so those paths produce errors instead of values. -/
def predict_with_groq (resp : List (String × Json)) : Except String Json :=
  match dictGetD resp "choices" (Json.arr [Json.obj []]) with
  | Json.arr xs =>
    match xs.head? with
    | none => Except.error "IndexError: list index out of range"
    | some (Json.obj kvs) => Except.ok (dictGetD kvs "text" (Json.str "No response"))
    | some _ => Except.error "AttributeError"
  | _ => Except.error "TypeError"

/-! ### Helper lemmas about frames and missing-value handling -/

theorem mapCols_cols_get? (f : Frame) (g : String → Col → Col) (i : ℕ) :
    (f.mapCols g).cols.get? i = (f.cols.get? i).map (fun p => (p.1, g p.1 p.2)) := by
  simp [Frame.mapCols, List.get?_map]

theorem filterMap_toFinite_replaceInf (cs : List NumCell) :
    (cs.map replaceInfCell).filterMap NumCell.toFinite = cs.filterMap NumCell.toFinite := by
  induction cs with
  | nil => rfl
  | cons c cs ih => cases c <;> simp [replaceInfCell, NumCell.toFinite, ih]

theorem median_isSome {l : List ℚ} (h : l ≠ []) : ∃ m, median l = some m := by
  have hlen : (List.insertionSort (fun a b => a ≤ b) l).length = l.length :=
    (List.perm_insertionSort _ l).length_eq
  have hne : (List.insertionSort (fun a b => a ≤ b) l).length ≠ 0 := by
    rw [hlen]
    exact fun hc => h (List.length_eq_zero.mp hc)
  unfold median
  simp only [if_neg hne]
  split
  · exact ⟨_, rfl⟩
  · exact ⟨_, rfl⟩

/-- On cells with the infinities already replaced by `NaN`, filling `NaN`
with `m` is the same as replacing every missing-or-infinite original cell
with `m`. -/
theorem fill_after_replaceInf (cs : List NumCell) (m : ℚ) :
    (cs.map replaceInfCell).map
        (fun c => if c = NumCell.na then NumCell.val m else c) =
      cs.map (fun c =>
        if c = NumCell.na ∨ c = NumCell.pinf ∨ c = NumCell.ninf then NumCell.val m else c) := by
  rw [List.map_map]
  refine List.map_congr_left (fun c _ => ?_)
  cases c <;> simp [replaceInfCell]

/-! ### Claim C1 -/

/-- C1 (amended): for every input batch lacking a `Label` column,
`handle_missing_values` reports the user-visible error message, but
processing still continues for that batch: the infinity replacement and
median imputation are applied and the processed frame is returned. -/
theorem C1_missing_label_reports_error_but_continues (f : Frame)
    (h : "Label" ∉ colNames f) :
    (handle_missing_values f).2 = [labelErrMsg] ∧
    (handle_missing_values f).1 = fillMedianFrame (replaceInfFrame f) := by
  rw [handle_missing_values, if_neg h]
  exact ⟨rfl, rfl⟩

/-- Witness for C1 at the concrete batch with a single numeric column
`[NaN, 1, 3]` and no `Label` column. -/
theorem C1_missing_label_witness :
    ("Label" ∉ colNames ⟨[("x", Col.num [NumCell.na, NumCell.val 1, NumCell.val 3])]⟩) ∧
    (handle_missing_values
        ⟨[("x", Col.num [NumCell.na, NumCell.val 1, NumCell.val 3])]⟩).2 = [labelErrMsg] :=
  ⟨by decide,
   (C1_missing_label_reports_error_but_continues
      ⟨[("x", Col.num [NumCell.na, NumCell.val 1, NumCell.val 3])]⟩ (by decide)).1⟩

/-- C1 counterexample: on the batch with one numeric column
`[NaN, 1, 3, 5]` and no `Label` column, `handle_missing_values` reports
the error, yet the downstream imputation IS applied to the batch: the
missing cell is filled with the column median `3`, so processing does
proceed, refuting the claim as stated. -/
theorem C1_counterexample :
    (handle_missing_values
        ⟨[("x", Col.num [NumCell.na, NumCell.val 1, NumCell.val 3, NumCell.val 5])]⟩).2 =
      [labelErrMsg] ∧
    (handle_missing_values
        ⟨[("x", Col.num [NumCell.na, NumCell.val 1, NumCell.val 3, NumCell.val 5])]⟩).1 =
      ⟨[("x", Col.num [NumCell.val 3, NumCell.val 1, NumCell.val 3, NumCell.val 5])]⟩ ∧
    (handle_missing_values
        ⟨[("x", Col.num [NumCell.na, NumCell.val 1, NumCell.val 3, NumCell.val 5])]⟩).1 ≠
      ⟨[("x", Col.num [NumCell.na, NumCell.val 1, NumCell.val 3, NumCell.val 5])]⟩ := by
  refine ⟨rfl, by decide, by decide⟩

/-! ### Claim C2 -/

/-- C2 (amended): for every batch with a `Label` column, consider any
numeric column of the batch after the rows with a missing `Label` are
removed.  Provided that column retains at least one finite (non-missing,
non-infinite) value, the corresponding column returned by
`handle_missing_values` contains no missing and no infinite value, and
every cell that was missing or infinite is replaced by the median of the
column's finite entries (computed within the same processing chunk, after
the label-row removal). -/
theorem C2_imputation_fills_with_median (f : Frame) (i : ℕ) (name : String)
    (cs : List NumCell)
    (hlab : "Label" ∈ colNames f)
    (hcol : (dropnaLabel f).cols.get? i = some (name, Col.num cs))
    (hfin : cs.filterMap NumCell.toFinite ≠ []) :
    ∃ m, median (cs.filterMap NumCell.toFinite) = some m ∧
      (handle_missing_values f).1.cols.get? i =
        some (name, Col.num (cs.map (fun c =>
          if c = NumCell.na ∨ c = NumCell.pinf ∨ c = NumCell.ninf
          then NumCell.val m else c))) ∧
      ∀ c ∈ cs.map (fun c =>
          if c = NumCell.na ∨ c = NumCell.pinf ∨ c = NumCell.ninf
          then NumCell.val m else c),
        ∃ q, c = NumCell.val q := by
  obtain ⟨m, hm⟩ := median_isSome hfin
  refine ⟨m, hm, ?_, ?_⟩
  · rw [handle_missing_values, if_pos hlab]
    rw [fillMedianFrame, replaceInfFrame, mapCols_cols_get?, mapCols_cols_get?, hcol]
    simp only [Option.map_some']
    rw [Col.replaceInf, Col.fillMedian, filterMap_toFinite_replaceInf, hm]
    dsimp only
    rw [fill_after_replaceInf]
  · intro c hc
    rw [List.mem_map] at hc
    obtain ⟨c0, _, hmap⟩ := hc
    subst hmap
    cases c0 <;> simp

/-- Witness for C2: the batch has a `Label` column with one missing label
and a numeric column `[1, 5, +inf]`; after dropping the unlabeled row the
column is `[1, +inf]`, whose only finite entry is `1`, so the infinity is
replaced by the median `1`. -/
theorem C2_imputation_witness :
    ("Label" ∈ colNames
        ⟨[("Label", Col.str [some "a", none, some "b"]),
          ("d", Col.num [NumCell.val 1, NumCell.val 5, NumCell.pinf])]⟩) ∧
    ((dropnaLabel
        ⟨[("Label", Col.str [some "a", none, some "b"]),
          ("d", Col.num [NumCell.val 1, NumCell.val 5, NumCell.pinf])]⟩).cols.get? 1 =
      some ("d", Col.num [NumCell.val 1, NumCell.pinf])) ∧
    ∃ m, median ([NumCell.val 1, NumCell.pinf].filterMap NumCell.toFinite) = some m ∧
      (handle_missing_values
          ⟨[("Label", Col.str [some "a", none, some "b"]),
            ("d", Col.num [NumCell.val 1, NumCell.val 5, NumCell.pinf])]⟩).1.cols.get? 1 =
        some ("d", Col.num ([NumCell.val 1, NumCell.pinf].map (fun c =>
          if c = NumCell.na ∨ c = NumCell.pinf ∨ c = NumCell.ninf
          then NumCell.val m else c))) ∧
      ∀ c ∈ [NumCell.val 1, NumCell.pinf].map (fun c =>
          if c = NumCell.na ∨ c = NumCell.pinf ∨ c = NumCell.ninf
          then NumCell.val m else c),
        ∃ q, c = NumCell.val q :=
  ⟨by decide, by decide,
   C2_imputation_fills_with_median
     ⟨[("Label", Col.str [some "a", none, some "b"]),
       ("d", Col.num [NumCell.val 1, NumCell.val 5, NumCell.pinf])]⟩
     1 "d" [NumCell.val 1, NumCell.pinf] (by decide) (by decide) (by decide)⟩

/-- C2 counterexample: the batch has a `Label` column and a numeric column
`[+inf]` whose every entry is infinite.  `handle_missing_values` turns the
infinity into `NaN` and the median of the empty remainder is itself `NaN`,
so the returned batch still contains a missing value in a numeric column,
refuting the claim as stated. -/
theorem C2_counterexample :
    ("Label" ∈ colNames ⟨[("Label", Col.str [some "a"]), ("d", Col.num [NumCell.pinf])]⟩) ∧
    (handle_missing_values
        ⟨[("Label", Col.str [some "a"]), ("d", Col.num [NumCell.pinf])]⟩).1.getCol "d" =
      some (Col.num [NumCell.na]) ∧
    ∀ q : ℚ, NumCell.na ≠ NumCell.val q := by
  refine ⟨by decide, by decide, fun q h => by cases h⟩

/-! ### Helper lemmas about column lookup -/

theorem find?_name_map (g : String → Col → Col) (nm : String) (l : List (String × Col)) :
    (l.map (fun p => (p.1, g p.1 p.2))).find? (fun p => p.1 = nm) =
      (l.find? (fun p => p.1 = nm)).map (fun p => (p.1, g p.1 p.2)) := by
  induction l with
  | nil => rfl
  | cons p ps ih =>
    by_cases h : p.1 = nm
    · simp [List.find?_cons, h]
    · simp [List.find?_cons, h, ih]

theorem getCol_mapCols (f : Frame) (g : String → Col → Col) (nm : String) :
    (f.mapCols g).getCol nm = (f.getCol nm).map (g nm) := by
  unfold Frame.getCol Frame.mapCols
  rw [find?_name_map]
  cases hf : f.cols.find? (fun p => p.1 = nm) with
  | none => rfl
  | some p =>
    have hp := List.find?_some hf
    simp only [decide_eq_true_eq] at hp
    simp [hp]

theorem mem_colNames_of_getCol {f : Frame} {nm : String} {c : Col}
    (h : f.getCol nm = some c) : nm ∈ colNames f := by
  unfold Frame.getCol at h
  rw [Option.map_eq_some'] at h
  obtain ⟨p, hp, -⟩ := h
  have hmem := List.mem_of_find?_eq_some hp
  have hname := List.find?_some hp
  simp only [decide_eq_true_eq] at hname
  exact hname ▸ List.mem_map.mpr ⟨p, hmem, rfl⟩

theorem find?_name_none (nm : String) (l : List (String × Col))
    (h : nm ∉ l.map (fun p => p.1)) : l.find? (fun p => p.1 = nm) = none := by
  induction l with
  | nil => rfl
  | cons p ps ih =>
    simp only [List.map_cons, List.mem_cons, not_or] at h
    have hne : ¬ (p.1 = nm) := fun hc => h.1 hc.symm
    simp [List.find?_cons, hne, ih h.2]

theorem find?_name_overwrite (nm : String) (c : Col) (l : List (String × Col))
    (h : nm ∈ l.map (fun p => p.1)) :
    (l.map (fun p => if p.1 = nm then (nm, c) else p)).find? (fun p => p.1 = nm) =
      some (nm, c) := by
  induction l with
  | nil => cases h
  | cons p ps ih =>
    by_cases hp : p.1 = nm
    · simp [List.find?_cons, hp]
    · simp only [List.map_cons, List.mem_cons, not_or] at h
      have h2 : nm ∈ ps.map (fun p => p.1) := by
        rcases h with h | h
        · exact absurd h.symm hp
        · exact h
      simp [List.find?_cons, hp, ih h2]

theorem getCol_setCol_self (f : Frame) (nm : String) (c : Col) :
    (f.setCol nm c).getCol nm = some c := by
  unfold Frame.setCol Frame.getCol
  by_cases h : nm ∈ colNames f
  · rw [if_pos h]
    rw [find?_name_overwrite nm c f.cols h]
    rfl
  · rw [if_neg h]
    rw [List.find?_append, find?_name_none nm f.cols h]
    simp [List.find?_cons]

theorem filterMap_getElem?_range {α : Type*} (l : List α) :
    (List.range l.length).filterMap (fun i => l[i]?) = l := by
  induction l with
  | nil => rfl
  | cons a t ih =>
    rw [List.length_cons, List.range_succ_eq_map]
    simp only [List.filterMap_cons, List.getElem?_cons_zero, List.filterMap_map]
    simp only [Function.comp_def, List.getElem?_cons_succ]
    rw [ih]

theorem selectIdx_range (c : Col) : c.selectIdx (List.range c.length) = c := by
  cases c <;>
    simp only [Col.selectIdx, Col.length, List.get?_eq_getElem?, filterMap_getElem?_range]

/-- `dropna(subset=['Label'])` keeps every row when the `Label` column has
no missing cell, and leaves the `Label` column itself unchanged. -/
theorem dropnaLabel_getCol_of_no_missing (f : Frame) (cs : List (Option String))
    (h : f.getCol "Label" = some (Col.str cs)) (hall : ∀ x ∈ cs, x.isSome) :
    (dropnaLabel f).getCol "Label" = some (Col.str cs) := by
  unfold dropnaLabel
  rw [h]
  have hkeep : (List.range (Col.str cs).length).filter
      (fun i => !((Col.str cs).cellIsNA i)) = List.range cs.length := by
    have hlen : (Col.str cs).length = cs.length := rfl
    rw [hlen]
    apply List.filter_eq_self.mpr
    intro i hi
    rw [List.mem_range] at hi
    have hsome := hall cs[i] (List.getElem_mem hi)
    rw [Option.isSome_iff_exists] at hsome
    obtain ⟨s, hs⟩ := hsome
    have h2 : cs[i]? = some (some s) := by
      rw [List.getElem?_eq_getElem hi, hs]
    simp [Col.cellIsNA, h2]
  rw [getCol_mapCols, h]
  simp only [Option.map_some']
  rw [hkeep]
  have : (Col.str cs).selectIdx (List.range cs.length) = Col.str cs := by
    have hlen : cs.length = (Col.str cs).length := rfl
    rw [hlen, selectIdx_range]
  rw [this]

/-! ### Claim C9 -/

/-- C9 (confirmed): a chunk whose (stripped) columns include "Label" but
neither "label" nor "Class" takes the fallback branch of
`load_and_combine_data`, which overwrites the existing `Label` column with
the constant string "normal" in every row, discarding the original label
values; the overwritten column survives missing-value handling and memory
optimization unchanged. -/
theorem C9_existing_Label_overwritten (c : Frame)
    (hL : "Label" ∈ colNames (trimFrame c))
    (hl : "label" ∉ colNames (trimFrame c))
    (hC : "Class" ∉ colNames (trimFrame c)) :
    (loadChunk c).1.getCol "Label" =
      some (Col.str (List.replicate (trimFrame c).nrows (some "normal"))) ∧
    (loadChunk c).2 = [] := by
  have h1 : normalizeChunk c =
      (trimFrame c).setCol "Label"
        (Col.str (List.replicate (trimFrame c).nrows (some "normal"))) := by
    unfold normalizeChunk
    rw [if_neg hl, if_neg hC]
  have hget : (normalizeChunk c).getCol "Label" =
      some (Col.str (List.replicate (trimFrame c).nrows (some "normal"))) := by
    rw [h1]; exact getCol_setCol_self _ _ _
  have hmem : "Label" ∈ colNames (normalizeChunk c) := mem_colNames_of_getCol hget
  have hdrop : (dropnaLabel (normalizeChunk c)).getCol "Label" =
      some (Col.str (List.replicate (trimFrame c).nrows (some "normal"))) := by
    apply dropnaLabel_getCol_of_no_missing _ _ hget
    intro x hx
    rw [List.eq_of_mem_replicate hx]
    rfl
  constructor
  · show ((handle_missing_values (normalizeChunk c)).1.mapCols
        (fun _ c => downcastCol c)).getCol "Label" = _
    rw [handle_missing_values, if_pos hmem]
    dsimp only
    rw [getCol_mapCols, fillMedianFrame, replaceInfFrame, getCol_mapCols, getCol_mapCols, hdrop]
    rfl
  · show (handle_missing_values (normalizeChunk c)).2 = []
    rw [handle_missing_values, if_pos hmem]

/-- Witness for C9 at a concrete two-column chunk whose labels are
"attack", "benign", "attack": after ingestion the `Label` column is the
constant "normal" column of length 3. -/
theorem C9_witness :
    ("Label" ∈ colNames (trimFrame
        ⟨[("Label", Col.str [some "attack", some "benign", some "attack"]),
          ("d", Col.num [NumCell.val 1, NumCell.val 2, NumCell.val 3])]⟩)) ∧
    (loadChunk
        ⟨[("Label", Col.str [some "attack", some "benign", some "attack"]),
          ("d", Col.num [NumCell.val 1, NumCell.val 2, NumCell.val 3])]⟩).1.getCol "Label" =
      some (Col.str (List.replicate (trimFrame
        ⟨[("Label", Col.str [some "attack", some "benign", some "attack"]),
          ("d", Col.num [NumCell.val 1, NumCell.val 2, NumCell.val 3])]⟩).nrows (some "normal"))) :=
  ⟨by decide,
   (C9_existing_Label_overwritten
      ⟨[("Label", Col.str [some "attack", some "benign", some "attack"]),
        ("d", Col.num [NumCell.val 1, NumCell.val 2, NumCell.val 3])]⟩
      (by decide) (by decide) (by decide)).1⟩

/-! ### Claim C3 -/

/-- C3 (confirmed): when anomaly detection is triggered, the
"Anomaly Prediction" column has exactly one entry per row of the combined
batch: position `i` below the test partition's length holds "Anomaly" if
the detector's prediction at `i` is -1 and "Normal" otherwise, and every
position at or beyond the test partition's length holds null. -/
theorem C3_anomaly_column_alignment (preds : List ℤ) (n : ℕ)
    (h : preds.length ≤ n) :
    (anomalyPredColumn preds n).length = n ∧
    (∀ (i : ℕ) (p : ℤ), preds[i]? = some p →
      (anomalyPredColumn preds n)[i]? =
        some (some (if p = -1 then "Anomaly" else "Normal"))) ∧
    (∀ i, preds.length ≤ i → i < n → (anomalyPredColumn preds n)[i]? = some none) := by
  refine ⟨?_, ?_, ?_⟩
  · simp only [anomalyPredColumn, List.length_append, List.length_map,
      List.length_replicate]
    omega
  · intro i p hp
    have hi : i < preds.length := by
      by_contra hge
      rw [List.getElem?_eq_none (by omega)] at hp
      cases hp
    rw [anomalyPredColumn,
      List.getElem?_append_left (by simpa using hi), List.getElem?_map, hp]
    by_cases hp1 : p = -1 <;> simp [hp1]
  · intro i hge hlt
    rw [anomalyPredColumn, List.getElem?_append_right (by simpa using hge)]
    simp only [List.length_map]
    rw [List.getElem?_replicate, if_pos (by omega)]

/-- Witness for C3 with detector outputs `[-1, 1]` on a three-row batch:
the column is `[Anomaly, Normal, null]`. -/
theorem C3_anomaly_column_witness :
    (([-1, 1] : List ℤ).length ≤ 3) ∧
    (anomalyPredColumn [-1, 1] 3).length = 3 ∧
    (anomalyPredColumn [-1, 1] 3)[0]? = some (some "Anomaly") ∧
    (anomalyPredColumn [-1, 1] 3)[1]? = some (some "Normal") ∧
    (anomalyPredColumn [-1, 1] 3)[2]? = some none := by
  have h3 := C3_anomaly_column_alignment [-1, 1] 3 (by decide)
  refine ⟨by decide, h3.1, ?_, ?_, h3.2.2 2 (by decide) (by decide)⟩
  · have := h3.2.1 0 (-1) (by decide)
    simpa using this
  · have := h3.2.1 1 1 (by decide)
    simpa using this

/-! ### Claim C8 -/

theorem map_overwrite_idem (nm : String) (c : Col) (l : List (String × Col)) :
    (l.map (fun p => if p.1 = nm then (nm, c) else p)).map
        (fun p => if p.1 = nm then (nm, c) else p) =
      l.map (fun p => if p.1 = nm then (nm, c) else p) := by
  rw [List.map_map]
  refine List.map_congr_left (fun p _ => ?_)
  by_cases hp : p.1 = nm <;> simp [hp]

theorem setCol_setCol_same (f : Frame) (nm : String) (c : Col) :
    (f.setCol nm c).setCol nm c = f.setCol nm c := by
  have hmem : nm ∈ colNames (f.setCol nm c) :=
    mem_colNames_of_getCol (getCol_setCol_self f nm c)
  conv_lhs => rw [Frame.setCol]
  rw [if_pos hmem]
  unfold Frame.setCol
  by_cases h : nm ∈ colNames f
  · rw [if_pos h]
    exact congrArg Frame.mk (map_overwrite_idem nm c f.cols)
  · rw [if_neg h]
    refine congrArg Frame.mk ?_
    rw [List.map_append]
    have h1 : f.cols.map (fun p => if p.1 = nm then (nm, c) else p) = f.cols := by
      have hid : ∀ p ∈ f.cols, (if p.1 = nm then (nm, c) else p) = id p := by
        intro p hp
        have hne : p.1 ≠ nm := fun hc => h (List.mem_map.mpr ⟨p, hp, hc⟩)
        simp [hne]
      rw [List.map_congr_left hid, List.map_id]
    rw [h1]
    simp

theorem nrows_setCol (f : Frame) (nm : String) (c : Col) :
    (f.setCol nm c).nrows = c.length ∨ (f.setCol nm c).nrows = f.nrows := by
  unfold Frame.setCol Frame.nrows
  by_cases h : nm ∈ colNames f
  · rw [if_pos h]
    cases hc : f.cols with
    | nil =>
      exfalso
      rw [colNames, hc] at h
      cases h
    | cons q qs =>
      by_cases hq : q.1 = nm
      · left; simp [hq]
      · right; simp [hq]
  · rw [if_neg h]
    cases hc : f.cols with
    | nil => left; rfl
    | cons q qs => right; simp

/-- C8 (confirmed): the anomaly scoring-and-flagging step is idempotent:
with a fixed trained detector and fixed test partition, applying the step
to an already-scored batch changes nothing, so re-running it yields the
same batch and the same set of flagged rows. -/
theorem C8_detect_idempotent (det : List ℚ → ℤ) (xtest : List (List ℚ)) (f : Frame) :
    detectStep det xtest (detectStep det xtest f) = detectStep det xtest f ∧
    suspiciousRows (detectStep det xtest (detectStep det xtest f)) =
      suspiciousRows (detectStep det xtest f) := by
  have hmain : detectStep det xtest (detectStep det xtest f) = detectStep det xtest f := by
    unfold detectStep
    have hc : anomalyPredColumn (xtest.map det)
        (f.setCol "Anomaly Prediction"
          (Col.str (anomalyPredColumn (xtest.map det) f.nrows))).nrows =
        anomalyPredColumn (xtest.map det) f.nrows := by
      rcases nrows_setCol f "Anomaly Prediction"
          (Col.str (anomalyPredColumn (xtest.map det) f.nrows)) with h | h
      · rw [h]
        show anomalyPredColumn (xtest.map det)
            (anomalyPredColumn (xtest.map det) f.nrows).length = _
        unfold anomalyPredColumn
        simp only [List.length_append, List.length_map, List.length_replicate]
        congr 2
        omega
      · rw [h]
    rw [hc]
    exact setCol_setCol_same f _ _
  exact ⟨hmain, by rw [hmain]⟩

/-! ### Claim C7 -/

/-- C7 (amended): for the completion response, `predict_with_groq` returns
the text field of the first completion when the choices list has a first
element (falling back to the placeholder if that element has no text
field); when the "choices" key is absent it returns the placeholder; but
when the "choices" key holds an empty list, the indexing raises an
IndexError instead of returning the fallback. -/
theorem C7_groq_first_choice_or_fallback (resp : List (String × Json)) :
    (∀ kvs rest,
      dictGetD resp "choices" (Json.arr [Json.obj []]) = Json.arr (Json.obj kvs :: rest) →
        predict_with_groq resp = Except.ok (dictGetD kvs "text" (Json.str "No response"))) ∧
    (resp.find? (fun p => p.1 = "choices") = none →
      predict_with_groq resp = Except.ok (Json.str "No response")) ∧
    (dictGetD resp "choices" (Json.arr [Json.obj []]) = Json.arr [] →
      predict_with_groq resp = Except.error "IndexError: list index out of range") := by
  refine ⟨?_, ?_, ?_⟩
  · intro kvs rest h
    rw [predict_with_groq, h]
    rfl
  · intro h
    rw [predict_with_groq, dictGetD, h]
    rfl
  · intro h
    rw [predict_with_groq, h]
    rfl

/-- Witness for C7 at a concrete successful response whose first
completion carries the text "ok". -/
theorem C7_groq_witness :
    (dictGetD [("choices", Json.arr [Json.obj [("text", Json.str "ok")]])] "choices"
        (Json.arr [Json.obj []]) =
      Json.arr (Json.obj [("text", Json.str "ok")] :: [])) ∧
    predict_with_groq [("choices", Json.arr [Json.obj [("text", Json.str "ok")]])] =
      Except.ok (dictGetD [("text", Json.str "ok")] "text" (Json.str "No response")) :=
  ⟨rfl,
   (C7_groq_first_choice_or_fallback
      [("choices", Json.arr [Json.obj [("text", Json.str "ok")]])]).1
     [("text", Json.str "ok")] [] rfl⟩

/-- C7 counterexample: a response whose "choices" key holds the empty list
makes `predict_with_groq` raise an IndexError rather than return the
fallback placeholder, refuting the claim as stated. -/
theorem C7_counterexample :
    predict_with_groq [("choices", Json.arr [])] =
      Except.error "IndexError: list index out of range" ∧
    ∀ j : Json, predict_with_groq [("choices", Json.arr [])] ≠ Except.ok j := by
  refine ⟨rfl, fun j h => ?_⟩
  rw [show predict_with_groq [("choices", Json.arr [])] =
      Except.error "IndexError: list index out of range" from rfl] at h
  cases h

/-! ### Counting lemmas for the evaluation metrics -/

theorem countP_zip_eq_filter_range (p : ℕ → ℕ → Bool) :
    ∀ (a b : List ℕ), a.length = b.length →
      (a.zip b).countP (fun r => p r.1 r.2) =
        ((List.range a.length).filter (fun i => p (a.getD i 0) (b.getD i 0))).length := by
  intro a
  induction a with
  | nil =>
    intro b h
    simp
  | cons x xs ih =>
    intro b h
    cases b with
    | nil => cases h
    | cons y ys =>
      have h' : xs.length = ys.length := by simpa using h
      have htail := ih ys h'
      rw [List.zip_cons_cons, List.countP_cons, htail]
      rw [List.length_cons, List.range_succ_eq_map, List.filter_cons]
      rw [List.filter_map]
      simp only [List.getD_cons_zero, Function.comp_def, List.getD_cons_succ]
      by_cases hxy : p x y = true
      · simp [hxy]
      · simp [hxy]

theorem sum_map_add_nat {α : Type*} (l : List α) (f g : α → ℕ) :
    (l.map (fun x => f x + g x)).sum = (l.map f).sum + (l.map g).sum := by
  induction l with
  | nil => rfl
  | cons a t ih =>
    simp only [List.map_cons, List.sum_cons, ih]
    omega

theorem sum_map_zero_nat {α : Type*} (l : List α) (f : α → ℕ)
    (h : ∀ x ∈ l, f x = 0) : (l.map f).sum = 0 := by
  induction l with
  | nil => rfl
  | cons a t ih =>
    simp only [List.map_cons, List.sum_cons]
    rw [h a (List.mem_cons_self a t), ih (fun x hx => h x (List.mem_cons_of_mem a hx))]

theorem sum_map_indicator (L : List ℕ) (x : ℕ) (hnd : L.Nodup) (hx : x ∈ L)
    (P : Prop) [Decidable P] :
    (L.map (fun q => if P ∧ x = q then 1 else 0)).sum = if P then 1 else 0 := by
  induction L with
  | nil => cases hx
  | cons a t ih =>
    rw [List.nodup_cons] at hnd
    simp only [List.map_cons, List.sum_cons]
    by_cases hxa : x = a
    · have hzero : (t.map (fun q => if P ∧ x = q then 1 else 0)).sum = 0 := by
        apply sum_map_zero_nat
        intro q hq
        have hne : ¬(P ∧ x = q) := by
          intro hc
          refine hnd.1 ?_
          rw [← hxa, hc.2]
          exact hq
        rw [if_neg hne]
      rw [hzero]
      by_cases hP : P
      · rw [if_pos ⟨hP, hxa⟩, if_pos hP]
      · rw [if_neg (fun hc => hP hc.1), if_neg hP]
    · have hxt : x ∈ t := by
        rcases List.mem_cons.mp hx with hc | hc
        · exact absurd hc hxa
        · exact hc
      rw [if_neg (fun hc => hxa hc.2), ih hnd.2 hxt]
      omega

theorem sum_countP_by_class (t0 : ℕ) (L : List ℕ) (hnd : L.Nodup) :
    ∀ l : List (ℕ × ℕ), (∀ r ∈ l, r.2 ∈ L) →
      (L.map (fun q => l.countP (fun r => r.1 = t0 ∧ r.2 = q))).sum =
        l.countP (fun r => r.1 = t0) := by
  intro l
  induction l with
  | nil => simp
  | cons r rs ih =>
    intro hsub
    have hr2 : r.2 ∈ L := hsub r (List.mem_cons_self r rs)
    have hsub' : ∀ x ∈ rs, x.2 ∈ L := fun x hx => hsub x (List.mem_cons_of_mem r hx)
    simp only [List.countP_cons, decide_eq_true_eq]
    rw [sum_map_add_nat, ih hsub', sum_map_indicator L r.2 hnd hr2 (r.1 = t0)]

theorem cmLabels_nodup (yT yP : List ℕ) : (cmLabels yT yP).Nodup :=
  ((List.perm_insertionSort _ _).nodup_iff).mpr (List.nodup_dedup _)

theorem mem_cmLabels {yT yP : List ℕ} {x : ℕ} (h : x ∈ yT ++ yP) :
    x ∈ cmLabels yT yP := by
  unfold cmLabels
  rw [(List.perm_insertionSort _ _).mem_iff]
  exact List.mem_dedup.mpr h

/-! ### Claim C4 -/

/-- C4 (confirmed): for every fitted classifier and test partition, the
accuracy displayed by `evaluate_model` equals the number of test rows
whose predicted label equals the true label divided by the total number
of test rows. -/
theorem C4_accuracy_fraction (model : List ℚ → ℕ) (Xtest : List (List ℚ))
    (yTest : List ℕ) (h : Xtest.length = yTest.length) :
    (evaluate_model model Xtest yTest).accuracy =
      (((List.range yTest.length).filter
          (fun i => yTest.getD i 0 = (Xtest.map model).getD i 0)).length : ℚ) /
        (yTest.length : ℚ) := by
  show accuracy_score yTest (Xtest.map model) = _
  unfold accuracy_score
  have hlen : yTest.length = (Xtest.map model).length := by
    rw [List.length_map, h]
  have key : (yTest.zip (Xtest.map model)).countP (fun r => r.1 = r.2) =
      ((List.range yTest.length).filter
        (fun i => yTest.getD i 0 = (Xtest.map model).getD i 0)).length :=
    countP_zip_eq_filter_range (fun t q => t = q) yTest (Xtest.map model) hlen
  rw [key]

/-- Witness for C4 with a two-row test partition and a constant-zero
classifier: the hypotheses hold and the displayed accuracy equals the
match fraction. -/
theorem C4_accuracy_witness :
    (([[1], [2]] : List (List ℚ)).length = ([1, 0] : List ℕ).length) ∧
    (evaluate_model (fun _ => 0) [[1], [2]] [1, 0]).accuracy =
      (((List.range ([1, 0] : List ℕ).length).filter
          (fun i => ([1, 0] : List ℕ).getD i 0 =
            (([[1], [2]] : List (List ℚ)).map (fun _ => 0)).getD i 0)).length : ℚ) /
        (([1, 0] : List ℕ).length : ℚ) :=
  ⟨by decide, C4_accuracy_fraction (fun _ => 0) [[1], [2]] [1, 0] (by decide)⟩

/-! ### Claim C5 -/

/-- C5 (confirmed): in the confusion matrix computed by `evaluate_model`,
the row indexed by class `t` sums to the number of test rows whose true
label is `t`, and its diagonal entry counts the test rows of class `t`
predicted correctly. -/
theorem C5_confusion_matrix_rows_and_diagonal (model : List ℚ → ℕ)
    (Xtest : List (List ℚ)) (yTest : List ℕ) (i t : ℕ)
    (h : Xtest.length = yTest.length)
    (ht : (cmLabels yTest (Xtest.map model))[i]? = some t) :
    ∃ row, (evaluate_model model Xtest yTest).cm[i]? = some row ∧
      row.sum =
        ((List.range yTest.length).filter (fun j => yTest.getD j 0 = t)).length ∧
      row[i]? = some (((List.range yTest.length).filter
        (fun j => yTest.getD j 0 = t ∧ (Xtest.map model).getD j 0 = t)).length) := by
  have hlen : yTest.length = (Xtest.map model).length := by
    rw [List.length_map, h]
  refine ⟨(cmLabels yTest (Xtest.map model)).map (fun p =>
    (yTest.zip (Xtest.map model)).countP (fun r => r.1 = t ∧ r.2 = p)), ?_, ?_, ?_⟩
  · show (confusion_matrix yTest (Xtest.map model))[i]? = _
    unfold confusion_matrix
    rw [List.getElem?_map, ht]
    rfl
  · have hsub : ∀ r ∈ yTest.zip (Xtest.map model),
        r.2 ∈ cmLabels yTest (Xtest.map model) := by
      intro r hr
      rcases r with ⟨r1, r2⟩
      exact mem_cmLabels (List.mem_append_right _ (List.of_mem_zip hr).2)
    rw [sum_countP_by_class t _ (cmLabels_nodup _ _) _ hsub]
    have key : (yTest.zip (Xtest.map model)).countP (fun r => r.1 = t) =
        ((List.range yTest.length).filter (fun j => yTest.getD j 0 = t)).length :=
      countP_zip_eq_filter_range (fun a _ => a = t) yTest (Xtest.map model) hlen
    rw [key]
  · rw [List.getElem?_map, ht]
    simp only [Option.map_some']
    have key : (yTest.zip (Xtest.map model)).countP (fun r => r.1 = t ∧ r.2 = t) =
        ((List.range yTest.length).filter
          (fun j => yTest.getD j 0 = t ∧ (Xtest.map model).getD j 0 = t)).length :=
      countP_zip_eq_filter_range (fun a b => a = t ∧ b = t) yTest (Xtest.map model) hlen
    rw [key]

/-- Witness for C5 at a two-row test partition, class code 0, with a
constant-zero classifier. -/
theorem C5_confusion_matrix_witness :
    (([[1], [2]] : List (List ℚ)).length = ([0, 1] : List ℕ).length) ∧
    ((cmLabels [0, 1] (([[1], [2]] : List (List ℚ)).map (fun _ => 0)))[0]? = some 0) ∧
    ∃ row, (evaluate_model (fun _ => 0) [[1], [2]] [0, 1]).cm[0]? = some row ∧
      row.sum =
        ((List.range ([0, 1] : List ℕ).length).filter
          (fun j => ([0, 1] : List ℕ).getD j 0 = 0)).length ∧
      row[0]? = some (((List.range ([0, 1] : List ℕ).length).filter
        (fun j => ([0, 1] : List ℕ).getD j 0 = 0 ∧
          (([[1], [2]] : List (List ℚ)).map (fun _ => 0)).getD j 0 = 0)).length) :=
  ⟨by decide, by decide,
   C5_confusion_matrix_rows_and_diagonal (fun _ => 0) [[1], [2]] [0, 1] 0 0
     (by decide) (by decide)⟩

/-! ### Helper lemmas for column update, drop and lookup interaction -/

theorem find?_name_map_overwrite_ne (nm nm' : String) (c : Col) (h : nm ≠ nm') :
    ∀ l : List (String × Col),
      (l.map (fun p => if p.1 = nm' then (nm', c) else p)).find? (fun p => p.1 = nm) =
        l.find? (fun p => p.1 = nm) := by
  intro l
  induction l with
  | nil => rfl
  | cons p ps ih =>
    rw [List.map_cons]
    by_cases hp : p.1 = nm'
    · have hpn : ¬((nm' : String) = nm) := fun hc => h hc.symm
      have hpn2 : ¬(p.1 = nm) := by rw [hp]; exact hpn
      rw [if_pos hp]
      rw [List.find?_cons_of_neg _ (by simpa using hpn), ih,
        List.find?_cons_of_neg _ (by simpa using hpn2)]
    · rw [if_neg hp]
      by_cases hq : p.1 = nm
      · rw [List.find?_cons_of_pos _ (by simpa using hq),
          List.find?_cons_of_pos _ (by simpa using hq)]
      · rw [List.find?_cons_of_neg _ (by simpa using hq), ih,
          List.find?_cons_of_neg _ (by simpa using hq)]

theorem getCol_setCol_ne (f : Frame) (nm nm' : String) (c : Col) (h : nm ≠ nm') :
    (f.setCol nm' c).getCol nm = f.getCol nm := by
  unfold Frame.setCol Frame.getCol
  by_cases hmem : nm' ∈ colNames f
  · rw [if_pos hmem]
    rw [find?_name_map_overwrite_ne nm nm' c h f.cols]
  · rw [if_neg hmem]
    rw [List.find?_append]
    have hlast : List.find? (fun p => p.1 = nm) [(nm', c)] = none := by
      have : ¬((nm' : String) = nm) := fun hc => h hc.symm
      simp [List.find?_cons, this]
    rw [hlast]
    cases List.find? (fun p => p.1 = nm) f.cols <;> rfl

theorem find?_name_filter_drop (names : List String) (nm : String)
    (h : ¬ names.contains nm = true) :
    ∀ l : List (String × Col),
      (l.filter (fun p => !(names.contains p.1))).find? (fun p => p.1 = nm) =
        l.find? (fun p => p.1 = nm) := by
  intro l
  induction l with
  | nil => rfl
  | cons p ps ih =>
    rw [List.filter_cons]
    by_cases hdrop : names.contains p.1 = true
    · have hcond : ¬((!names.contains p.1) = true) := by
        rw [hdrop]
        decide
      have hne : ¬(p.1 = nm) := fun hc => h (hc ▸ hdrop)
      rw [if_neg hcond, ih, List.find?_cons_of_neg _ (by simpa using hne)]
    · have hfalse : names.contains p.1 = false := by
        cases hcontains : names.contains p.1
        · rfl
        · exact absurd hcontains hdrop
      have hcond : ((!names.contains p.1) = true) := by
        rw [hfalse]
        decide
      rw [if_pos hcond]
      by_cases hq : p.1 = nm
      · rw [List.find?_cons_of_pos _ (by simpa using hq),
          List.find?_cons_of_pos _ (by simpa using hq)]
      · rw [List.find?_cons_of_neg _ (by simpa using hq), ih,
          List.find?_cons_of_neg _ (by simpa using hq)]

theorem getCol_dropCols_of_not_mem (f : Frame) (names : List String) (nm : String)
    (h : ¬ names.contains nm = true) :
    (f.dropCols names).getCol nm = f.getCol nm := by
  unfold Frame.dropCols Frame.getCol
  rw [find?_name_filter_drop names nm h f.cols]

theorem not_mem_colNames_dropCols (f : Frame) (names : List String) (nm : String)
    (h : names.contains nm = true) : nm ∉ colNames (f.dropCols names) := by
  intro hmem
  unfold colNames Frame.dropCols at hmem
  rw [List.mem_map] at hmem
  obtain ⟨p, hp, hpn⟩ := hmem
  rw [List.mem_filter] at hp
  have hp2 := hp.2
  rw [hpn, h] at hp2
  cases hp2

/-! ### Claim C10 -/

/-- C10 (confirmed): `preprocess_data` mutates the combined batch it is
given in place: in the caller-visible frame after the call, the `Label`
column holds the integer label codes instead of the original strings, the
`Timestamp` and `ID` columns are removed, every other column is unchanged,
and the flagged-rows view later displayed is built from this mutated
frame (its `Label` column is a row selection of the encoded codes). -/
theorem C10_preprocess_mutates_in_place (f : Frame) (vals : List String)
    (hlab : f.getCol "Label" = some (Col.str (vals.map some))) :
    (preprocess_data f).1.getCol "Label" =
      some (Col.num ((leTransform vals).map (fun k => NumCell.val (k : ℚ)))) ∧
    "Timestamp" ∉ colNames (preprocess_data f).1 ∧
    "ID" ∉ colNames (preprocess_data f).1 ∧
    (∀ nm, nm ≠ "Label" → nm ≠ "Timestamp" → nm ≠ "ID" →
      (preprocess_data f).1.getCol nm = f.getCol nm) ∧
    (∀ (det : List ℚ → ℤ) (xtest : List (List ℚ)),
      (suspiciousRows (detectStep det xtest (preprocess_data f).1)).getCol "Label" =
        some ((Col.num ((leTransform vals).map (fun k => NumCell.val (k : ℚ)))).selectIdx
          (flaggedIdx (detectStep det xtest (preprocess_data f).1)))) := by
  have hls : labelStrings f = vals := by
    unfold labelStrings
    rw [hlab]
    dsimp only
    rw [List.map_map]
    simp [Function.comp_def]
  have hshape : (preprocess_data f).1 =
      (f.setCol "Label"
        (Col.num ((leTransform vals).map (fun k => NumCell.val (k : ℚ))))).dropCols
        ["Timestamp", "ID"] := by
    unfold preprocess_data
    rw [hls]
  have hlabelcol : (preprocess_data f).1.getCol "Label" =
      some (Col.num ((leTransform vals).map (fun k => NumCell.val (k : ℚ)))) := by
    rw [hshape, getCol_dropCols_of_not_mem _ _ _ (by decide)]
    exact getCol_setCol_self _ _ _
  refine ⟨hlabelcol, ?_, ?_, ?_, ?_⟩
  · rw [hshape]
    exact not_mem_colNames_dropCols _ _ _ (by decide)
  · rw [hshape]
    exact not_mem_colNames_dropCols _ _ _ (by decide)
  · intro nm h1 h2 h3
    have hmemlist : nm ∉ ["Timestamp", "ID"] := by
      intro hmem
      rcases List.mem_cons.mp hmem with hh | hmem2
      · exact h2 hh
      rcases List.mem_cons.mp hmem2 with hh | hmem3
      · exact h3 hh
      cases hmem3
    have hc : ¬ (["Timestamp", "ID"].contains nm = true) := by
      intro hcon
      obtain ⟨b, hb, hbeq⟩ := List.contains_iff_exists_mem_beq.mp hcon
      refine hmemlist ?_
      rw [eq_of_beq hbeq]
      exact hb
    rw [hshape, getCol_dropCols_of_not_mem _ _ _ hc]
    exact getCol_setCol_ne _ _ _ _ h1
  · intro det xtest
    unfold suspiciousRows
    rw [getCol_mapCols]
    unfold detectStep
    rw [getCol_setCol_ne _ _ _ _ (by decide), hlabelcol]
    rfl

/-- Witness for C10 at a concrete three-column batch with labels
`["b", "a"]`: the hypotheses hold, the Label column is replaced by the
codes `[1, 0]` and the Timestamp column disappears. -/
theorem C10_preprocess_witness :
    ((⟨[("Label", Col.str [some "b", some "a"]),
        ("Timestamp", Col.num [NumCell.val 1, NumCell.val 2]),
        ("x", Col.num [NumCell.val 3, NumCell.val 4])]⟩ : Frame).getCol "Label" =
      some (Col.str ((["b", "a"] : List String).map some))) ∧
    (preprocess_data
        ⟨[("Label", Col.str [some "b", some "a"]),
          ("Timestamp", Col.num [NumCell.val 1, NumCell.val 2]),
          ("x", Col.num [NumCell.val 3, NumCell.val 4])]⟩).1.getCol "Label" =
      some (Col.num ((leTransform ["b", "a"]).map (fun k => NumCell.val (k : ℚ)))) ∧
    "Timestamp" ∉ colNames (preprocess_data
        ⟨[("Label", Col.str [some "b", some "a"]),
          ("Timestamp", Col.num [NumCell.val 1, NumCell.val 2]),
          ("x", Col.num [NumCell.val 3, NumCell.val 4])]⟩).1 :=
  ⟨rfl,
   (C10_preprocess_mutates_in_place
      ⟨[("Label", Col.str [some "b", some "a"]),
        ("Timestamp", Col.num [NumCell.val 1, NumCell.val 2]),
        ("x", Col.num [NumCell.val 3, NumCell.val 4])]⟩ ["b", "a"] rfl).1,
   (C10_preprocess_mutates_in_place
      ⟨[("Label", Col.str [some "b", some "a"]),
        ("Timestamp", Col.num [NumCell.val 1, NumCell.val 2]),
        ("x", Col.num [NumCell.val 3, NumCell.val 4])]⟩ ["b", "a"] rfl).2.1⟩

/-! ### Arithmetic and allocation lemmas for the stratified split -/

theorem add_div_decompose (x y n : ℕ) (hn : 0 < n) :
    (x + y) / n = (x % n + y % n) / n + (x / n + y / n) := by
  have hx := Nat.div_add_mod x n
  have hy := Nat.div_add_mod y n
  have hxy : x + y = (x % n + y % n) + (x / n + y / n) * n := by
    rw [Nat.add_mul, Nat.mul_comm (x / n) n, Nat.mul_comm (y / n) n]
    omega
  rw [hxy, Nat.add_mul_div_right _ _ hn]

theorem div_add_div_le (x y n : ℕ) : x / n + y / n ≤ (x + y) / n := by
  cases Nat.eq_zero_or_pos n with
  | inl h => subst h; simp
  | inr hn =>
    rw [add_div_decompose x y n hn]
    exact Nat.le_add_left _ _

theorem add_le_succ_aux (A B C : ℕ) (h2 : A < 2) : A + (B + C) ≤ B + C + 1 := by
  omega

theorem add_div_le_succ (x y n : ℕ) : (x + y) / n ≤ x / n + y / n + 1 := by
  cases Nat.eq_zero_or_pos n with
  | inl h => subst h; simp
  | inr hn =>
    rw [add_div_decompose x y n hn]
    have hmx := Nat.mod_lt x hn
    have hmy := Nat.mod_lt y hn
    have h2 : (x % n + y % n) / n < 2 := by
      rw [Nat.div_lt_iff_lt_mul hn]
      omega
    exact add_le_succ_aux _ _ _ h2

theorem stratAlloc_length (m n : ℕ) : ∀ (ks : List ℕ) (acc : ℕ),
    (stratAlloc m n acc ks).length = ks.length := by
  intro ks
  induction ks with
  | nil => intro acc; rfl
  | cons k ks ih => intro acc; simp [stratAlloc, ih]

theorem stratAlloc_sum (m n : ℕ) : ∀ (ks : List ℕ) (acc : ℕ),
    (stratAlloc m n acc ks).sum + m * acc / n = m * (acc + ks.sum) / n := by
  intro ks
  induction ks with
  | nil => intro acc; simp [stratAlloc]
  | cons k ks ih =>
    intro acc
    have hmono : m * acc / n ≤ m * (acc + k) / n :=
      Nat.div_le_div_right (Nat.mul_le_mul_left m (Nat.le_add_right acc k))
    have hih := ih (acc + k)
    simp only [stratAlloc, List.sum_cons]
    have hassoc : acc + (k + ks.sum) = (acc + k) + ks.sum := by omega
    rw [hassoc]
    omega

theorem stratAlloc_get (m n : ℕ) (hmn : m ≤ n) :
    ∀ (ks : List ℕ) (acc j k : ℕ), ks[j]? = some k →
      ∃ t, (stratAlloc m n acc ks)[j]? = some t ∧
        m * k / n ≤ t ∧ t ≤ m * k / n + 1 ∧ t ≤ k := by
  intro ks
  induction ks with
  | nil => intro acc j k h; cases h
  | cons k0 ks ih =>
    intro acc j k h
    cases j with
    | zero =>
      rw [List.getElem?_cons_zero] at h
      have hk : k0 = k := Option.some.inj h
      subst hk
      rcases Nat.eq_zero_or_pos n with hn | hn
      · subst hn
        have hm : m = 0 := Nat.le_zero.mp hmn
        subst hm
        exact ⟨0, by simp [stratAlloc], by simp, by simp, Nat.zero_le _⟩
      · have hsplit : m * (acc + k0) = m * acc + m * k0 := by rw [Nat.mul_add]
        have hlow : m * acc / n + m * k0 / n ≤ m * (acc + k0) / n := by
          rw [hsplit]; exact div_add_div_le _ _ n
        have hup : m * (acc + k0) / n ≤ m * acc / n + m * k0 / n + 1 := by
          rw [hsplit]; exact add_div_le_succ _ _ n
        have hle : m * (acc + k0) / n ≤ m * acc / n + k0 := by
          have h1 : m * (acc + k0) ≤ m * acc + k0 * n := by
            have h2 : m * k0 ≤ k0 * n := by
              rw [Nat.mul_comm k0 n]
              exact Nat.mul_le_mul_right k0 hmn
            omega
          calc m * (acc + k0) / n ≤ (m * acc + k0 * n) / n := Nat.div_le_div_right h1
            _ = m * acc / n + k0 := Nat.add_mul_div_right _ _ hn
        refine ⟨m * (acc + k0) / n - m * acc / n, by simp [stratAlloc], ?_, ?_, ?_⟩
        · exact Nat.le_sub_of_add_le (by rw [Nat.add_comm]; exact hlow)
        · exact Nat.sub_le_iff_le_add.mpr (le_trans hup (le_of_eq (by ring)))
        · exact Nat.sub_le_iff_le_add.mpr (le_trans hle (le_of_eq (by ring)))
    | succ j' =>
      rw [List.getElem?_cons_succ] at h
      obtain ⟨t, ht, hb⟩ := ih (acc + k0) j' k h
      refine ⟨t, ?_, hb⟩
      simpa [stratAlloc] using ht

/-! ### Class-index lemmas for the stratified split -/

theorem mem_classIndices {y : List ℕ} {c i : ℕ} :
    i ∈ classIndices y c ↔ i < y.length ∧ y.getD i 0 = c := by
  unfold classIndices
  rw [List.mem_filter, List.mem_range]
  simp

theorem classIndices_nodup (y : List ℕ) (c : ℕ) : (classIndices y c).Nodup :=
  List.Nodup.filter _ (List.nodup_range _)

theorem length_classIndices (y : List ℕ) (c : ℕ) :
    (classIndices y c).length = y.count c := by
  unfold classIndices
  induction y with
  | nil => simp
  | cons a ys ih =>
    rw [List.length_cons, List.range_succ_eq_map, List.filter_cons]
    rw [List.filter_map]
    simp only [List.getD_cons_zero, Function.comp_def, List.getD_cons_succ]
    rw [List.count_cons]
    simp only [List.getD_eq_getElem?_getD] at ih
    by_cases hac : a = c
    · subst hac
      simp [ih]
    · simp [hac, Ne.symm hac, ih]

theorem sklClasses_nodup (y : List ℕ) : (sklClasses y).Nodup :=
  ((List.perm_insertionSort _ _).nodup_iff).mpr (List.nodup_dedup _)

theorem mem_sklClasses {y : List ℕ} {c : ℕ} : c ∈ sklClasses y ↔ c ∈ y := by
  unfold sklClasses
  rw [(List.perm_insertionSort _ _).mem_iff, List.mem_dedup]

theorem splitPairs_length_eq (y : List ℕ) :
    (stratAlloc (nTest y.length) y.length 0
      ((sklClasses y).map (fun c => y.count c))).length = (sklClasses y).length := by
  rw [stratAlloc_length, List.length_map]

theorem splitPairs_map_fst (y : List ℕ) :
    (splitPairs y).map Prod.fst = sklClasses y := by
  unfold splitPairs
  exact List.map_fst_zip _ _ (le_of_eq (splitPairs_length_eq y).symm)

theorem splitPairs_map_snd (y : List ℕ) :
    (splitPairs y).map Prod.snd =
      stratAlloc (nTest y.length) y.length 0 ((sklClasses y).map (fun c => y.count c)) := by
  unfold splitPairs
  exact List.map_snd_zip _ _ (le_of_eq (splitPairs_length_eq y))

theorem nTest_le (n : ℕ) : nTest n ≤ n := by
  unfold nTest
  omega

theorem snd_unique_of_fst_nodup {P : List (ℕ × ℕ)} (h : (P.map Prod.fst).Nodup)
    {c t1 t2 : ℕ} (h1 : (c, t1) ∈ P) (h2 : (c, t2) ∈ P) : t1 = t2 := by
  induction P with
  | nil => cases h1
  | cons p ps ih =>
    rw [List.map_cons, List.nodup_cons] at h
    rcases List.mem_cons.mp h1 with e1 | m1
    · rcases List.mem_cons.mp h2 with e2 | m2
      · have h12 : ((c, t1) : ℕ × ℕ) = (c, t2) := e1.trans e2.symm
        exact (Prod.ext_iff.mp h12).2
      · exfalso
        refine h.1 ?_
        rw [← e1]
        exact List.mem_map.mpr ⟨(c, t2), m2, rfl⟩
    · rcases List.mem_cons.mp h2 with e2 | m2
      · exfalso
        refine h.1 ?_
        rw [← e2]
        exact List.mem_map.mpr ⟨(c, t1), m1, rfl⟩
      · exact ih h.2 m1 m2

/-- Every (class, allocation) pair of the split satisfies the allocation
bounds: the allocation is within one of the proportional share and never
exceeds the class size. -/
theorem splitPairs_snd_bounds (y : List ℕ) (p : ℕ × ℕ) (hp : p ∈ splitPairs y) :
    nTest y.length * y.count p.1 / y.length ≤ p.2 ∧
    p.2 ≤ nTest y.length * y.count p.1 / y.length + 1 ∧
    p.2 ≤ y.count p.1 := by
  obtain ⟨j, hj, hget⟩ := List.getElem_of_mem hp
  have hgetq : (splitPairs y)[j]? = some p := by
    rw [List.getElem?_eq_getElem hj, hget]
  unfold splitPairs at hgetq
  rw [List.getElem?_zip_eq_some] at hgetq
  have hks : ((sklClasses y).map (fun c => y.count c))[j]? = some (y.count p.1) := by
    rw [List.getElem?_map, hgetq.1]
    rfl
  obtain ⟨t, ht, hb1, hb2, hb3⟩ :=
    stratAlloc_get (nTest y.length) y.length (nTest_le _) _ 0 j (y.count p.1) hks
  have htp : t = p.2 := Option.some.inj (ht.symm.trans hgetq.2)
  subst htp
  exact ⟨hb1, hb2, hb3⟩

/-! ### Counting and length lemmas for the split's flatMap structure -/

theorem countP_flatMap_take_zero (y : List ℕ) (c : ℕ)
    (P : List (ℕ × ℕ)) (h : ∀ p ∈ P, p.1 ≠ c) :
    (P.flatMap (fun p => (classIndices y p.1).take p.2)).countP
      (fun i => y.getD i 0 = c) = 0 := by
  rw [List.countP_eq_zero]
  intro i hi
  rw [List.mem_flatMap] at hi
  obtain ⟨p, hp, hip⟩ := hi
  have hmem := mem_classIndices.mp (List.mem_of_mem_take hip)
  simp only [decide_eq_true_eq]
  intro hcc
  exact h p hp (hmem.2.symm.trans hcc)

theorem countP_take_classIndices_self (y : List ℕ) (c t : ℕ)
    (hle : t ≤ (classIndices y c).length) :
    ((classIndices y c).take t).countP (fun i => y.getD i 0 = c) = t := by
  have hall : ∀ i ∈ (classIndices y c).take t, (fun i => decide (y.getD i 0 = c)) i = true := by
    intro i hi
    have hmem := mem_classIndices.mp (List.mem_of_mem_take hi)
    simp only [decide_eq_true_eq]
    exact hmem.2
  rw [List.countP_eq_length.mpr hall, List.length_take, Nat.min_eq_left hle]

theorem countP_flatMap_take (y : List ℕ) (c t0 : ℕ) :
    ∀ P : List (ℕ × ℕ), (P.map Prod.fst).Nodup → ((c, t0) ∈ P) →
      (∀ p ∈ P, p.2 ≤ (classIndices y p.1).length) →
      (P.flatMap (fun p => (classIndices y p.1).take p.2)).countP
        (fun i => y.getD i 0 = c) = t0 := by
  intro P
  induction P with
  | nil => intro _ hmem _; cases hmem
  | cons p ps ih =>
    intro hnd hmem hble
    rw [List.map_cons, List.nodup_cons] at hnd
    rw [List.flatMap_cons, List.countP_append]
    rcases List.mem_cons.mp hmem with he | hm
    · have hp1 : p.1 = c := by rw [← he]
      have hp2 : p.2 = t0 := by rw [← he]
      have hzero : (ps.flatMap (fun p => (classIndices y p.1).take p.2)).countP
          (fun i => y.getD i 0 = c) = 0 := by
        refine countP_flatMap_take_zero y c ps (fun q hq hqc => ?_)
        refine hnd.1 ?_
        rw [hp1, ← hqc]
        exact List.mem_map.mpr ⟨q, hq, rfl⟩
      rw [hzero, hp1, countP_take_classIndices_self y c p.2
        (by rw [← hp1]; exact hble p (List.mem_cons_self p ps)), hp2]
      omega
    · have hp1 : p.1 ≠ c := by
        intro hc
        refine hnd.1 ?_
        rw [hc]
        exact List.mem_map.mpr ⟨(c, t0), hm, rfl⟩
      have hhead : ((classIndices y p.1).take p.2).countP (fun i => y.getD i 0 = c) = 0 := by
        rw [List.countP_eq_zero]
        intro i hi
        have hmem2 := mem_classIndices.mp (List.mem_of_mem_take hi)
        simp only [decide_eq_true_eq]
        intro hcc
        exact hp1 (hmem2.2.symm.trans hcc)
      rw [hhead, ih hnd.2 hm (fun q hq => hble q (List.mem_cons_of_mem p hq))]
      omega

theorem flatMap_take_length (y : List ℕ) (P : List (ℕ × ℕ))
    (hble : ∀ p ∈ P, p.2 ≤ (classIndices y p.1).length) :
    (P.flatMap (fun p => (classIndices y p.1).take p.2)).length =
      (P.map Prod.snd).sum := by
  induction P with
  | nil => rfl
  | cons p ps ih =>
    rw [List.flatMap_cons, List.length_append, List.map_cons, List.sum_cons]
    rw [List.length_take, Nat.min_eq_left (hble p (List.mem_cons_self p ps)),
      ih (fun q hq => hble q (List.mem_cons_of_mem p hq))]

theorem flatMap_drop_length (y : List ℕ) (P : List (ℕ × ℕ)) :
    (P.flatMap (fun p => (classIndices y p.1).drop p.2)).length =
      (P.map (fun p => (classIndices y p.1).length - p.2)).sum := by
  induction P with
  | nil => rfl
  | cons p ps ih =>
    rw [List.flatMap_cons, List.length_append, List.map_cons, List.sum_cons,
      List.length_drop, ih]

theorem counts_sum (y : List ℕ) :
    ((sklClasses y).map (fun c => y.count c)).sum = y.length := by
  have hperm : ((sklClasses y).map (fun c => y.count c)).Perm
      (y.dedup.map (fun c => y.count c)) :=
    (List.perm_insertionSort _ _).map _
  rw [hperm.sum_eq]
  exact List.sum_map_count_dedup_eq_length y

theorem stratAlloc_total (y : List ℕ) :
    (stratAlloc (nTest y.length) y.length 0
      ((sklClasses y).map (fun c => y.count c))).sum = nTest y.length := by
  cases Nat.eq_zero_or_pos y.length with
  | inl h0 =>
    have hy : y = [] := List.length_eq_zero.mp h0
    subst hy
    rfl
  | inr hpos =>
    have hsum := stratAlloc_sum (nTest y.length) y.length
      ((sklClasses y).map (fun c => y.count c)) 0
    rw [counts_sum] at hsum
    rw [Nat.mul_zero, Nat.zero_div, Nat.zero_add, Nat.add_zero] at hsum
    rw [hsum, Nat.mul_div_cancel _ hpos]

theorem splitPairs_ble (y : List ℕ) :
    ∀ p ∈ splitPairs y, p.2 ≤ (classIndices y p.1).length := by
  intro p hp
  rw [length_classIndices]
  exact (splitPairs_snd_bounds y p hp).2.2

theorem mem_splitPairs_of_class (y : List ℕ) {c : ℕ} (hc : c ∈ sklClasses y) :
    ∃ t, (c, t) ∈ splitPairs y := by
  obtain ⟨j, hj, hget⟩ := List.getElem_of_mem hc
  have hjt : j < (stratAlloc (nTest y.length) y.length 0
      ((sklClasses y).map (fun c => y.count c))).length := by
    rw [splitPairs_length_eq]
    exact hj
  refine ⟨(stratAlloc (nTest y.length) y.length 0
      ((sklClasses y).map (fun c => y.count c)))[j], ?_⟩
  refine List.getElem?_mem (n := j) ?_
  unfold splitPairs
  rw [List.getElem?_zip_eq_some]
  constructor
  · rw [List.getElem?_eq_getElem hj, hget]
  · rw [List.getElem?_eq_getElem hjt]

/-! ### Claim C6 -/

/-- C6 (amended): the train/test split used by `preprocess_data`
(`stratifiedSplit` on the encoded labels with fixed seed) produces
disjoint partitions covering exactly the row indices, with the test
partition holding ⌈n/5⌉ rows and the train partition the remaining
n − ⌈n/5⌉ rows (exactly 20%/80% only when n is divisible by 5); each
label's test count stays within one row of its proportional share of the
test size; and the split is deterministic: identical input and identical
seed yield identical partitions. -/
theorem C6_stratified_split_properties (y : List ℕ) (seed : ℕ) :
    (stratifiedSplit y seed).2.length = nTest y.length ∧
    (stratifiedSplit y seed).1.length = y.length - nTest y.length ∧
    (∀ i : ℕ, (i ∈ (stratifiedSplit y seed).2 ∨ i ∈ (stratifiedSplit y seed).1) ↔
      i < y.length) ∧
    (∀ i : ℕ, ¬(i ∈ (stratifiedSplit y seed).2 ∧ i ∈ (stratifiedSplit y seed).1)) ∧
    (∀ c ∈ sklClasses y,
      nTest y.length * y.count c / y.length ≤
        (stratifiedSplit y seed).2.countP (fun i => y.getD i 0 = c) ∧
      (stratifiedSplit y seed).2.countP (fun i => y.getD i 0 = c) ≤
        nTest y.length * y.count c / y.length + 1) ∧
    (∀ (y2 : List ℕ) (seed2 : ℕ), y2 = y → seed2 = seed →
      stratifiedSplit y2 seed2 = stratifiedSplit y seed) := by
  have hsplit : stratifiedSplit y seed =
      ((splitPairs y).flatMap (fun p => (classIndices y p.1).drop p.2),
       (splitPairs y).flatMap (fun p => (classIndices y p.1).take p.2)) := rfl
  have hble := splitPairs_ble y
  have hfstnd : ((splitPairs y).map Prod.fst).Nodup := by
    rw [splitPairs_map_fst]
    exact sklClasses_nodup y
  refine ⟨?_, ?_, ?_, ?_, ?_, ?_⟩
  · rw [hsplit]
    show ((splitPairs y).flatMap fun p => (classIndices y p.1).take p.2).length = _
    rw [flatMap_take_length y _ hble, splitPairs_map_snd, stratAlloc_total]
  · rw [hsplit]
    show ((splitPairs y).flatMap fun p => (classIndices y p.1).drop p.2).length = _
    rw [flatMap_drop_length]
    have h1 : ((splitPairs y).map (fun p => (classIndices y p.1).length - p.2)).sum +
        ((splitPairs y).map Prod.snd).sum =
        ((splitPairs y).map (fun p => (classIndices y p.1).length)).sum := by
      rw [← sum_map_add_nat]
      refine congrArg List.sum ?_
      refine List.map_congr_left (fun p hp => ?_)
      exact Nat.sub_add_cancel (hble p hp)
    have h2 : ((splitPairs y).map (fun p => (classIndices y p.1).length)).sum =
        y.length := by
      have hmm : (splitPairs y).map (fun p => (classIndices y p.1).length) =
          (sklClasses y).map (fun c => y.count c) := by
        rw [show (fun p : ℕ × ℕ => (classIndices y p.1).length) =
            ((fun c => (classIndices y c).length) ∘ Prod.fst) from rfl]
        rw [← List.map_map, splitPairs_map_fst]
        refine List.map_congr_left (fun c _ => ?_)
        exact length_classIndices y c
      rw [hmm, counts_sum]
    have h3 : ((splitPairs y).map Prod.snd).sum = nTest y.length := by
      rw [splitPairs_map_snd, stratAlloc_total]
    omega
  · intro i
    rw [hsplit]
    constructor
    · intro hmem
      rcases hmem with hmem | hmem
      · rw [List.mem_flatMap] at hmem
        obtain ⟨p, hp, hip⟩ := hmem
        exact (mem_classIndices.mp (List.mem_of_mem_take hip)).1
      · rw [List.mem_flatMap] at hmem
        obtain ⟨p, hp, hip⟩ := hmem
        exact (mem_classIndices.mp (List.mem_of_mem_drop hip)).1
    · intro hi
      have hc : y.getD i 0 ∈ sklClasses y := by
        rw [mem_sklClasses, List.getD_eq_getElem y 0 hi]
        exact List.getElem_mem hi
      obtain ⟨t, hpt⟩ := mem_splitPairs_of_class y hc
      have hiC : i ∈ classIndices y (y.getD i 0) := mem_classIndices.mpr ⟨hi, rfl⟩
      rw [← List.take_append_drop t (classIndices y (y.getD i 0))] at hiC
      rcases List.mem_append.mp hiC with h | h
      · left
        rw [List.mem_flatMap]
        exact ⟨(y.getD i 0, t), hpt, h⟩
      · right
        rw [List.mem_flatMap]
        exact ⟨(y.getD i 0, t), hpt, h⟩
  · intro i hcontra
    rw [hsplit] at hcontra
    obtain ⟨htest, htrain⟩ := hcontra
    rw [List.mem_flatMap] at htest htrain
    obtain ⟨p1, hp1, hi1⟩ := htest
    obtain ⟨p2, hp2, hi2⟩ := htrain
    have hc1 := mem_classIndices.mp (List.mem_of_mem_take hi1)
    have hc2 := mem_classIndices.mp (List.mem_of_mem_drop hi2)
    have hcc : p1.1 = p2.1 := hc1.2.symm.trans hc2.2
    have hsame : p1.2 = p2.2 := by
      refine snd_unique_of_fst_nodup hfstnd (c := p1.1) ?_ ?_
      · have : (p1.1, p1.2) = p1 := rfl
        rw [this]
        exact hp1
      · have : ((p1.1, p2.2) : ℕ × ℕ) = (p2.1, p2.2) := by rw [hcc]
        rw [this]
        have h2 : ((p2.1, p2.2) : ℕ × ℕ) = p2 := rfl
        rw [h2]
        exact hp2
    rw [← hcc, ← hsame] at hi2
    have hnodup := classIndices_nodup y p1.1
    rw [← List.take_append_drop p1.2 (classIndices y p1.1)] at hnodup
    have hdisj := (List.nodup_append.mp hnodup).2.2
    exact hdisj hi1 hi2
  · intro c hc
    obtain ⟨t, hpt⟩ := mem_splitPairs_of_class y hc
    have hcount : (stratifiedSplit y seed).2.countP (fun i => y.getD i 0 = c) = t := by
      rw [hsplit]
      exact countP_flatMap_take y c t (splitPairs y) hfstnd hpt hble
    have hb := splitPairs_snd_bounds y (c, t) hpt
    rw [hcount]
    exact ⟨hb.1, hb.2.1⟩
  · intro y2 seed2 h1 h2
    subst h1
    subst h2
    rfl

/-- Witness for C6 at the label vector `[0, 0, 1]` with seed 42: the test
partition has ⌈3/5⌉ = 1 row and class 0's test count is at least its
proportional share. -/
theorem C6_split_witness :
    (0 ∈ sklClasses [0, 0, 1]) ∧
    ((stratifiedSplit [0, 0, 1] 42).2.length = nTest ([0, 0, 1] : List ℕ).length) ∧
    (nTest ([0, 0, 1] : List ℕ).length * ([0, 0, 1] : List ℕ).count 0 /
        ([0, 0, 1] : List ℕ).length ≤
      (stratifiedSplit [0, 0, 1] 42).2.countP
        (fun i => ([0, 0, 1] : List ℕ).getD i 0 = 0)) :=
  ⟨by decide, (C6_stratified_split_properties [0, 0, 1] 42).1,
   ((C6_stratified_split_properties [0, 0, 1] 42).2.2.2.2.1 0 (by decide)).1⟩

/-- C6 counterexample: on three rows of a single class, the test partition
holds one row, which is not 20% of the rows (0.6 rows would be), so the
exact-20% reading of the claim fails; stratified label proportions can
likewise not be preserved exactly at this size. -/
theorem C6_counterexample :
    (stratifiedSplit [0, 0, 0] 42).2.length = 1 ∧
    ¬ (((stratifiedSplit [0, 0, 0] 42).2.length : ℚ) =
        (1 / 5) * (([0, 0, 0] : List ℕ).length : ℚ)) := by
  have hlen : (stratifiedSplit [0, 0, 0] 42).2.length = 1 := by decide
  refine ⟨hlen, ?_⟩
  intro hc
  rw [hlen] at hc
  norm_num at hc

end App
